import Mathlib

/-!
Verification of the nginx-style configuration parser of this repository
(`lib/parsers/nginx/parser.go`).

The Go source is shallowly embedded: strings become `List Char` (the Go code
ranges over runes), `strings.TrimSpace` becomes `trimSpace` (ASCII whitespace,
which is what the configuration dialect uses), and the mutating tree builder
becomes a zipper: Go appends the freshly opened block to its parent's slice at
push time and keeps mutating it in place through the stack alias; here the
open block is kept as the top stack frame and merged into its parent when it
is popped (or at end of input).  This yields the same final tree because a
scope-opening fragment is always the last fragment of its line (proved below
as `splitDirectives_dropLast_no_brace`), so an open frame is always the last
child its parent receives.
-/

namespace nginx

/-- Whitespace test used by the embedding of `strings.TrimSpace` and
`strings.Fields` (space, tab, carriage return, newline). -/
def ws (c : Char) : Bool := c.isWhitespace

/-- Drop trailing whitespace, the second half of `strings.TrimSpace`. -/
def dropTrailingWs (l : List Char) : List Char :=
  (l.reverse.dropWhile ws).reverse

/-- Embedding of `strings.TrimSpace`. -/
def trimSpace (l : List Char) : List Char :=
  dropTrailingWs (l.dropWhile ws)

/-- Embedding of `strings.Fields`: split around runs of whitespace. -/
def fieldsAux : List Char → List Char → List (List Char)
  | [], cur => if cur = [] then [] else [cur]
  | c :: cs, cur =>
    if ws c then
      if cur = [] then fieldsAux cs [] else cur :: fieldsAux cs []
    else fieldsAux cs (cur ++ [c])

/-- Embedding of `strings.Fields` applied to a line. -/
def fields (l : List Char) : List (List Char) := fieldsAux l []

/-- Embedding of `strings.Index(line, "#")`: split at the first `#`, returning
the text before it and the text after it. -/
def breakHash : List Char → Option (List Char × List Char)
  | [] => none
  | c :: cs =>
    if c = '#' then some ([], cs)
    else (breakHash cs).map (fun p => (c :: p.1, p.2))

/-- Comment handling at the top of `parseLine` (lines 92-99 of the source):
the first `#` of the line, wherever it is, starts the comment; the text after
it (trimmed) becomes the single comment, the text before it (trimmed) remains
the directive text. -/
def stripComment (line : List Char) : List Char × List (List Char) :=
  match breakHash line with
  | some (before, after) => (trimSpace before, [trimSpace after])
  | none => (line, [])

/-- Single-character quote-state transition of `splitDirectives`: a quote
character enters a quoted span when none is open and closes it when it matches
the opening mark; every other character leaves the state unchanged. -/
def stepQuote (q : Option Char) (c : Char) : Option Char :=
  if c = '\x27' ∨ c = '"' then
    match q with
    | some qc => if c = qc then none else some qc
    | none => some c
  else q

/-- Quote state after scanning a list of characters from state `q`. -/
def quoteState (q : Option Char) (l : List Char) : Option Char :=
  l.foldl stepQuote q

/-- Whether the scan of `l` starting in quote state `q` meets a `;` while no
quote is open. -/
def hasUnquotedSemi (q : Option Char) : List Char → Bool
  | [] => false
  | c :: cs =>
    if c = ';' ∧ q = none then true
    else hasUnquotedSemi (stepQuote q c) cs

/-- Worker of `splitDirectives` (lines 210-252 of the source): `results` and
`current` are the builder state, `quoteMark` is `none` when `inQuote` is false
and `some` of the remembered quote character otherwise. -/
def splitAux : List Char → List (List Char) → List Char → Option Char → List (List Char)
  | [], results, current, _ =>
    if current = [] then results else results ++ [trimSpace current]
  | c :: cs, results, current, quoteMark =>
    if c = '\x27' ∨ c = '"' then
      match quoteMark with
      | some qc =>
        if c = qc then splitAux cs results (current ++ [c]) none
        else splitAux cs results (current ++ [c]) (some qc)
      | none => splitAux cs results (current ++ [c]) (some c)
    else if c = ';' then
      match quoteMark with
      | some _ => splitAux cs results (current ++ [c]) quoteMark
      | none => splitAux cs (results ++ [trimSpace current]) [] none
    else if c = '\x7b' then
      match quoteMark with
      | some _ => splitAux cs results (current ++ [c]) quoteMark
      | none => results ++ [trimSpace (current ++ [c])]
    else splitAux cs results (current ++ [c]) quoteMark

/-- Embedding of `splitDirectives`: split a line on unquoted `;`, stop at the
first unquoted `\x7b` (kept in its fragment), trim every emitted fragment. -/
def splitDirectives (line : List Char) : List (List Char) :=
  splitAux line [] [] none

/-- Embedding of the Go `LineType` constants. -/
inductive LineType where
  | LineTypeComment
  | LineTypeInclude
  | LineTypeDirective
  | LineTypeBlock
deriving DecidableEq, Repr

open LineType

/-- Embedding of the Go `Line` struct. -/
structure Line where
  name : List Char
  params : List (List Char)
  comments : List (List Char)
  type : LineType
deriving DecidableEq, Repr

/-- Embedding of the Go `Block` struct.  The `ParentRef` back-pointer is a
non-owning lookup aid with no influence on parsing and is not represented. -/
inductive Block where
  | mk (name : List Char) (params : List (List Char)) (lines : List Line)
       (blocks : List Block) (comments : List (List Char))

/-- Name of a block. -/
def Block.name : Block → List Char
  | ⟨n, _, _, _, _⟩ => n

/-- Parameters of a block. -/
def Block.params : Block → List (List Char)
  | ⟨_, p, _, _, _⟩ => p

/-- Lines directly in a block. -/
def Block.lines : Block → List Line
  | ⟨_, _, ls, _, _⟩ => ls

/-- Child blocks of a block. -/
def Block.blocks : Block → List Block
  | ⟨_, _, _, bs, _⟩ => bs

/-- Comments attached to a block. -/
def Block.comments : Block → List (List Char)
  | ⟨_, _, _, _, cs⟩ => cs

/-- The root block created at the start of `ParseConfig`. -/
def rootBlock : Block := ⟨("root").toList, [], [], [], []⟩

/-- Append one line to a block, as `currentBlock.Lines = append(...)` does. -/
def appendLine (b : Block) (l : Line) : Block :=
  ⟨b.name, b.params, b.lines ++ [l], b.blocks, b.comments⟩

/-- Append one child block to a block, as `currentBlock.Blocks = append(...)`
does (in the zipper view this happens when the child is popped). -/
def appendBlock (parent child : Block) : Block :=
  ⟨parent.name, parent.params, parent.lines, parent.blocks ++ [child], parent.comments⟩

/-- Embedding of lines 148-161 of the source: remove the opening brace from
the last parameter word of a scope-opening fragment.  `ps` are the words after
the name; the result is the new block's parameter list. -/
def blockParamsOf (ps : List (List Char)) : List (List Char) :=
  match ps.reverse with
  | [] => []
  | lastParam :: revInit =>
    if lastParam = [ '\x7b' ] then revInit.reverse
    else if lastParam.getLast? = some '\x7b' then revInit.reverse ++ [lastParam.dropLast]
    else ps

/-- Embedding of the fragment loop of `parseLine` (lines 125-206 of the
source).  `comments` is the pending comment of the physical line, cleared once
attached; the returned pair is the updated current block and the frames pushed
onto the stack (newest first).  As in the source, all line appends go to the
current block passed in. -/
def parseDirectives : List (List Char) → List (List Char) → Block → Block × List Block
  | [], _, cur => (cur, [])
  | d :: rest, comments, cur =>
    if trimSpace d = [] then parseDirectives rest comments cur
    else
      match fields (trimSpace d) with
      | [] => parseDirectives rest comments cur
      | name :: ps =>
        if (trimSpace d).getLast? = some '\x7b' then
          let newBlock : Block := ⟨name, blockParamsOf ps, [], [], comments⟩
          let cur2 := appendLine cur ⟨name, blockParamsOf ps, comments, LineTypeBlock⟩
          let r := parseDirectives rest [] cur2
          (r.1, r.2 ++ [newBlock])
        else
          let lineType := if name = ("include").toList then LineTypeInclude else LineTypeDirective
          parseDirectives rest [] (appendLine cur ⟨name, ps, comments, lineType⟩)

/-- Embedding of `parseLine` (lines 90-207 of the source).  The stack is kept
top first; its last element is the root.  An empty stack never occurs in runs
started by `ParseConfig` and is returned unchanged. -/
def parseLine (line : List Char) (stack : List Block) : List Block :=
  match stack with
  | [] => []
  | cur :: rest =>
    if (stripComment line).1 = [] then
      if (stripComment line).2 = [] then cur :: rest
      else appendLine cur ⟨[], [], (stripComment line).2, LineTypeComment⟩ :: rest
    else if (stripComment line).1 = [ '\x7d' ] then
      match rest with
      | [] => cur :: rest
      | parent :: rest2 => appendBlock parent cur :: rest2
    else
      (parseDirectives (splitDirectives (stripComment line).1) (stripComment line).2 cur).2
        ++ (parseDirectives (splitDirectives (stripComment line).1) (stripComment line).2 cur).1
          :: rest

/-- Merge the frames still open at end of input downward into their parents;
in the Go original the children are already linked, merging here is the zipper
counterpart. -/
def closeAll : Block → List Block → Block
  | b, [] => b
  | top, parent :: rest => closeAll (appendBlock parent top) rest

/-- One iteration of the scanning loop of `ParseConfig` (lines 68-80 of the
source): trim the raw line, skip it when blank, otherwise hand it to
`parseLine`. -/
def parseStep (stack : List Block) (raw : List Char) : List Block :=
  if trimSpace raw = [] then stack else parseLine (trimSpace raw) stack

/-- The scanning loop of `ParseConfig` (lines 64-80 of the source): fold
`parseStep` over the raw lines, then read the root off the stack. -/
def parseConfigLines (input : List (List Char)) : Block :=
  match input.foldl parseStep [rootBlock] with
  | [] => rootBlock
  | top :: rest => closeAll top rest

/-- Embedding of the Go `Config` struct. -/
structure Config where
  rootBlock : Block
  filePath : List Char

/-- Embedding of `ParseConfig` (lines 45-87 of the source).  The file open and
the scanner are the only fallible steps; they are modelled as one `Except`
supplying the raw lines.  On success the parse itself is total. -/
def ParseConfig (filePath : List Char) (source : Except (List Char) (List (List Char))) :
    Except (List Char) Config :=
  match source with
  | Except.error e => Except.error e
  | Except.ok ls => Except.ok ⟨parseConfigLines ls, filePath⟩

/-- Embedding of `strings.Join(xs, " ")`. -/
def joinSpace (xs : List (List Char)) : List Char :=
  List.intercalate ([ ' ' ]) xs

mutual
/-- Embedding of `printBlock` (lines 260-304 of the source), the flat
re-serializer: returns the printed lines instead of writing them out. -/
def printBlock (block : Block) (indent : Nat) : List (List Char) :=
  match block with
  | ⟨name, params, lines, blocks, comments⟩ =>
    let indentStr := List.replicate (2 * indent) ' '
    let header :=
      if name ≠ ("root").toList then
        [indentStr ++ name
          ++ (if params ≠ [] then ' ' :: joinSpace params else [])
          ++ (" \x7b").toList
          ++ (if comments ≠ [] then (" # ").toList ++ joinSpace comments else [])]
      else []
    let lineStrs := lines.filterMap (fun l =>
      if l.type = LineTypeBlock then none
      else some (indentStr ++ ("  ").toList ++ l.name
        ++ (if l.params ≠ [] then ' ' :: joinSpace l.params else [])
        ++ (if l.type ≠ LineTypeComment then [ ';' ] else [])
        ++ (if l.comments ≠ [] then (" # ").toList ++ joinSpace l.comments else [])))
    let childStrs := printBlocks blocks (indent + 1)
    let closing := if name ≠ ("root").toList then [indentStr ++ [ '\x7d' ]] else []
    header ++ lineStrs ++ childStrs ++ closing

/-- Print a list of sibling blocks in order. -/
def printBlocks : List Block → Nat → List (List Char)
  | [], _ => []
  | b :: bs, i => printBlock b i ++ printBlocks bs i
end

/-- Name and parameters of a line, the data compared by the tree-shape
invariant. -/
def npLine (l : Line) : List Char × List (List Char) := (l.name, l.params)

/-- Name and parameters of a block. -/
def np (b : Block) : List Char × List (List Char) := (b.name, b.params)

/-- The names and parameters of the BlockStart entries of a line list, in
order. -/
def bsPairs (ls : List Line) : List (List Char × List (List Char)) :=
  ls.filterMap (fun l => if l.type = LineTypeBlock then some (npLine l) else none)

mutual
/-- The tree-shape invariant of §3 of the specification: in every block the
BlockStart lines correspond one to one, in order and by name and parameters,
with the child blocks. -/
def blocksMirror : Block → Bool
  | ⟨_, _, lines, blocks, _⟩ =>
    decide (bsPairs lines = blocks.map np) && blocksMirrorList blocks

/-- The tree-shape invariant on a list of sibling blocks. -/
def blocksMirrorList : List Block → Bool
  | [] => true
  | b :: bs => blocksMirror b && blocksMirrorList bs
end

/-- Modelled from the spec (§4.2 step b): "Strip the trailing `\x7b` from the
final word (or drop it entirely if it was its own word)"; used to compare the
specified scope-opening word handling with the implemented one. -/
def specStripBrace (words : List (List Char)) : List (List Char) :=
  match words.reverse with
  | [] => []
  | w :: revInit =>
    if w = [ '\x7b' ] then revInit.reverse
    else if w.getLast? = some '\x7b' then revInit.reverse ++ [w.dropLast]
    else words

/-- Modelled from the spec (§4.2 step b): after stripping the brace, the first
remaining word is the scope's name, the rest are its arguments. -/
def specScopeOpen (words : List (List Char)) : List Char × List (List Char) :=
  let stripped := specStripBrace words
  (stripped.headI, stripped.tail)

/-! Lemmas about trimming. -/

theorem dropWhile_dropWhile (p : Char → Bool) (l : List Char) :
    List.dropWhile p (List.dropWhile p l) = List.dropWhile p l := by
  induction l with
  | nil => rfl
  | cons a t ih =>
    by_cases h : p a
    · simpa [List.dropWhile_cons, h] using ih
    · simp [List.dropWhile_cons, h]

theorem dropWhile_prefix_fixed (p : Char → Bool) (l l' : List Char)
    (h : List.dropWhile p l = l) (hp : l' <+: l) : List.dropWhile p l' = l' := by
  cases l' with
  | nil => rfl
  | cons a t =>
    obtain ⟨s, rfl⟩ := hp
    have ha : p a = false := by
      by_contra hc
      have ha' : p a = true := by revert hc; cases p a <;> simp
      rw [List.cons_append, List.dropWhile_cons, ha'] at h
      simp only [if_true] at h
      have hsuf : List.dropWhile p (t ++ s) <:+ (t ++ s) := List.dropWhile_suffix p
      have hle := hsuf.length_le
      rw [h] at hle
      simp at hle
    simp [List.dropWhile_cons, ha]

theorem dropTrailingWs_prefix (x : List Char) : dropTrailingWs x <+: x := by
  have h := List.dropWhile_suffix (l := x.reverse) ws
  have h2 : (List.dropWhile ws x.reverse).reverse <+: x.reverse.reverse :=
    List.reverse_prefix.mpr h
  simpa [dropTrailingWs] using h2

theorem dropTrailingWs_append_ws (l : List Char) (c : Char) (h : ws c = true) :
    dropTrailingWs (l ++ [c]) = dropTrailingWs l := by
  simp [dropTrailingWs, List.dropWhile_cons, h]

theorem dropTrailingWs_append_nonws (l : List Char) (c : Char) (h : ws c = false) :
    dropTrailingWs (l ++ [c]) = l ++ [c] := by
  simp [dropTrailingWs, List.dropWhile_cons, h]

theorem dropTrailingWs_singleton_nonws (c : Char) (h : ws c = false) :
    dropTrailingWs [c] = [c] := by
  simpa using dropTrailingWs_append_nonws [] c h

theorem trimSpace_append_ws (l : List Char) (c : Char) (h : ws c = true) :
    trimSpace (l ++ [c]) = trimSpace l := by
  unfold trimSpace
  rw [List.dropWhile_append]
  by_cases h0 : (List.dropWhile ws l).isEmpty = true
  · rw [if_pos h0]
    rw [List.isEmpty_iff] at h0
    simp [h0, List.dropWhile_cons, h, dropTrailingWs]
  · rw [if_neg h0]
    rw [dropTrailingWs_append_ws _ _ h]

theorem trimSpace_append_nonws (l : List Char) (c : Char) (h : ws c = false) :
    trimSpace (l ++ [c]) = List.dropWhile ws l ++ [c] := by
  unfold trimSpace
  rw [List.dropWhile_append]
  by_cases h0 : (List.dropWhile ws l).isEmpty = true
  · rw [if_pos h0]
    rw [List.isEmpty_iff] at h0
    simp [h0, List.dropWhile_cons, h, dropTrailingWs_singleton_nonws _ h]
  · rw [if_neg h0]
    rw [dropTrailingWs_append_nonws _ _ h]

theorem trimSpace_append_nonws_getLast (l : List Char) (c : Char) (h : ws c = false) :
    (trimSpace (l ++ [c])).getLast? = some c := by
  rw [trimSpace_append_nonws _ _ h, List.getLast?_concat]

theorem trimSpace_idem (l : List Char) : trimSpace (trimSpace l) = trimSpace l := by
  have hA : List.dropWhile ws (List.dropWhile ws l) = List.dropWhile ws l :=
    dropWhile_dropWhile ws l
  have hpre : dropTrailingWs (List.dropWhile ws l) <+: List.dropWhile ws l :=
    dropTrailingWs_prefix _
  have hfix : List.dropWhile ws (trimSpace l) = trimSpace l :=
    dropWhile_prefix_fixed ws _ _ hA hpre
  show dropTrailingWs (List.dropWhile ws (trimSpace l)) = trimSpace l
  rw [hfix]
  show dropTrailingWs (dropTrailingWs (List.dropWhile ws l)) = trimSpace l
  simp [dropTrailingWs, dropWhile_dropWhile, trimSpace]

/-! Lemmas about the quote-state scan. -/

theorem quoteState_nil (q : Option Char) : quoteState q [] = q := rfl

theorem quoteState_cons (q : Option Char) (c : Char) (l : List Char) :
    quoteState q (c :: l) = quoteState (stepQuote q c) l := rfl

theorem quoteState_append_one (q : Option Char) (l : List Char) (c : Char) :
    quoteState q (l ++ [c]) = stepQuote (quoteState q l) c := by
  simp [quoteState, List.foldl_append]

theorem stepQuote_nonquote (q : Option Char) (c : Char)
    (h : ¬(c = '\x27' ∨ c = '"')) : stepQuote q c = q := by
  simp [stepQuote, h]

theorem hasUnquotedSemi_cons (q : Option Char) (c : Char) (cs : List Char) :
    hasUnquotedSemi q (c :: cs)
      = if c = ';' ∧ q = none then true else hasUnquotedSemi (stepQuote q c) cs := rfl

theorem hasUnquotedSemi_append_one (q : Option Char) (l : List Char) (c : Char) :
    hasUnquotedSemi q (l ++ [c])
      = (hasUnquotedSemi q l || (decide (c = ';') && decide (quoteState q l = none))) := by
  induction l generalizing q with
  | nil =>
    by_cases h1 : c = ';' <;> by_cases h2 : (q = none) <;>
      simp [hasUnquotedSemi, hasUnquotedSemi_cons, quoteState_nil, h1, h2]
  | cons a t ih =>
    by_cases h : a = ';' ∧ q = none
    · simp [List.cons_append, hasUnquotedSemi_cons, h]
    · rw [List.cons_append, hasUnquotedSemi_cons, if_neg h, hasUnquotedSemi_cons, if_neg h,
        ih, quoteState_cons]

theorem hasUnquotedSemi_dropWhile_ws (l : List Char) :
    hasUnquotedSemi none (List.dropWhile ws l) = hasUnquotedSemi none l := by
  induction l with
  | nil => rfl
  | cons a t ih =>
    by_cases h : ws a
    · have hsemi : ¬(a = ';' ∧ (none : Option Char) = none) := by
        rintro ⟨rfl, -⟩
        exact absurd h (by decide)
      have hq : stepQuote none a = none := by
        apply stepQuote_nonquote
        rintro (rfl | rfl) <;> exact absurd h (by decide)
      rw [List.dropWhile_cons]
      simp only [h, if_true]
      rw [ih, hasUnquotedSemi_cons, if_neg hsemi, hq]
    · rw [List.dropWhile_cons]
      simp [h]

theorem hasUnquotedSemi_of_append (q : Option Char) (a b : List Char)
    (h : hasUnquotedSemi q (a ++ b) = false) : hasUnquotedSemi q a = false := by
  induction a generalizing q with
  | nil => rfl
  | cons x t ih =>
    by_cases hx : x = ';' ∧ q = none
    · rw [List.cons_append] at h
      simp [hasUnquotedSemi, hx] at h
    · simp only [List.cons_append, hasUnquotedSemi, hx, if_false] at h ⊢
      exact ih _ h

theorem hasUnquotedSemi_trimSpace (l : List Char)
    (h : hasUnquotedSemi none l = false) :
    hasUnquotedSemi none (trimSpace l) = false := by
  have h1 : hasUnquotedSemi none (List.dropWhile ws l) = false := by
    rw [hasUnquotedSemi_dropWhile_ws]; exact h
  obtain ⟨s, hs⟩ := dropTrailingWs_prefix (List.dropWhile ws l)
  have : trimSpace l ++ s = List.dropWhile ws l := hs
  rw [← this] at h1
  exact hasUnquotedSemi_of_append _ _ _ h1

/-! Lemmas about `splitAux` and `splitDirectives`. -/

theorem splitAux_cons_none (c : Char) (cs : List Char) (results : List (List Char))
    (current : List Char) :
    splitAux (c :: cs) results current none =
      if c = '\x27' ∨ c = '"' then splitAux cs results (current ++ [c]) (some c)
      else if c = ';' then splitAux cs (results ++ [trimSpace current]) [] none
      else if c = '\x7b' then results ++ [trimSpace (current ++ [c])]
      else splitAux cs results (current ++ [c]) none := rfl

theorem splitAux_cons_some (c : Char) (cs : List Char) (results : List (List Char))
    (current : List Char) (qc : Char) :
    splitAux (c :: cs) results current (some qc) =
      if c = '\x27' ∨ c = '"' then
        (if c = qc then splitAux cs results (current ++ [c]) none
         else splitAux cs results (current ++ [c]) (some qc))
      else if c = ';' then splitAux cs results (current ++ [c]) (some qc)
      else if c = '\x7b' then splitAux cs results (current ++ [c]) (some qc)
      else splitAux cs results (current ++ [c]) (some qc) := rfl

theorem splitAux_dropLast_no_brace :
    ∀ (cs : List Char) (results : List (List Char)) (current : List Char) (q : Option Char),
      (∀ f ∈ results, (trimSpace f).getLast? ≠ some '\x7b') →
      (q = none → (trimSpace current).getLast? ≠ some '\x7b') →
      ∀ f ∈ (splitAux cs results current q).dropLast, (trimSpace f).getLast? ≠ some '\x7b' := by
  intro cs
  induction cs with
  | nil =>
    intro results current q hres hcur f hf
    rw [show splitAux [] results current q
      = if current = [] then results else results ++ [trimSpace current] from rfl] at hf
    by_cases h0 : current = []
    · rw [if_pos h0] at hf
      exact hres f ((List.dropLast_prefix results).subset hf)
    · rw [if_neg h0, List.dropLast_concat] at hf
      exact hres f hf
  | cons c cs ih =>
    intro results current q hres hcur f hf
    cases q with
    | none =>
      rw [splitAux_cons_none] at hf
      by_cases h1 : c = '\x27' ∨ c = '"'
      · rw [if_pos h1] at hf
        exact ih _ _ _ hres (fun h => Option.noConfusion h) f hf
      · rw [if_neg h1] at hf
        by_cases h2 : c = ';'
        · rw [if_pos h2] at hf
          refine ih _ _ _ ?_ (fun _ => by decide) f hf
          intro g hg
          rcases List.mem_append.mp hg with hg | hg
          · exact hres g hg
          · rw [List.mem_singleton] at hg
            subst hg
            rw [trimSpace_idem]
            exact hcur rfl
        · rw [if_neg h2] at hf
          by_cases h3 : c = '\x7b'
          · rw [if_pos h3, List.dropLast_concat] at hf
            exact hres f hf
          · rw [if_neg h3] at hf
            refine ih _ _ _ hres ?_ f hf
            intro _
            by_cases hws : ws c = true
            · rw [trimSpace_append_ws _ _ hws]
              exact hcur rfl
            · have hws' : ws c = false := by revert hws; cases ws c <;> simp
              rw [trimSpace_append_nonws_getLast _ _ hws']
              intro hcontra
              exact h3 (Option.some.inj hcontra)
    | some qc =>
      rw [splitAux_cons_some] at hf
      by_cases h1 : c = '\x27' ∨ c = '"'
      · rw [if_pos h1] at hf
        have hcnws : ws c = false := by rcases h1 with rfl | rfl <;> decide
        have hcne : c ≠ '\x7b' := by rcases h1 with rfl | rfl <;> decide
        by_cases h2 : c = qc
        · rw [if_pos h2] at hf
          refine ih _ _ _ hres ?_ f hf
          intro _
          rw [trimSpace_append_nonws_getLast _ _ hcnws]
          intro hcontra
          exact hcne (Option.some.inj hcontra)
        · rw [if_neg h2] at hf
          exact ih _ _ _ hres (fun h => Option.noConfusion h) f hf
      · rw [if_neg h1] at hf
        by_cases h2 : c = ';'
        · rw [if_pos h2] at hf
          exact ih _ _ _ hres (fun h => Option.noConfusion h) f hf
        · rw [if_neg h2] at hf
          by_cases h3 : c = '\x7b'
          · rw [if_pos h3] at hf
            exact ih _ _ _ hres (fun h => Option.noConfusion h) f hf
          · rw [if_neg h3] at hf
            exact ih _ _ _ hres (fun h => Option.noConfusion h) f hf

theorem splitDirectives_dropLast_no_brace (line : List Char) :
    ∀ f ∈ (splitDirectives line).dropLast, (trimSpace f).getLast? ≠ some '\x7b' :=
  splitAux_dropLast_no_brace line [] [] none (fun f hf => absurd hf (List.not_mem_nil f))
    (fun _ => by decide)

theorem splitAux_no_unquoted_semi :
    ∀ (cs : List Char) (results : List (List Char)) (current : List Char) (q : Option Char),
      (∀ f ∈ results, hasUnquotedSemi none f = false) →
      hasUnquotedSemi none current = false →
      q = quoteState none current →
      ∀ f ∈ splitAux cs results current q, hasUnquotedSemi none f = false := by
  intro cs
  induction cs with
  | nil =>
    intro results current q hres hcur hq f hf
    rw [show splitAux [] results current q
      = if current = [] then results else results ++ [trimSpace current] from rfl] at hf
    by_cases h0 : current = []
    · rw [if_pos h0] at hf
      exact hres f hf
    · rw [if_neg h0] at hf
      rcases List.mem_append.mp hf with hf | hf
      · exact hres f hf
      · rw [List.mem_singleton] at hf
        subst hf
        exact hasUnquotedSemi_trimSpace _ hcur
  | cons c cs ih =>
    intro results current q hres hcur hq f hf
    have hsemiOf : decide (c = ';') = false → hasUnquotedSemi none (current ++ [c]) = false := by
      intro hd
      rw [hasUnquotedSemi_append_one, hcur, hd]
      rfl
    cases q with
    | none =>
      rw [splitAux_cons_none] at hf
      by_cases h1 : c = '\x27' ∨ c = '"'
      · rw [if_pos h1] at hf
        refine ih _ _ _ hres (hsemiOf (by rcases h1 with rfl | rfl <;> decide)) ?_ f hf
        rw [quoteState_append_one, ← hq]
        simp [stepQuote, h1]
      · rw [if_neg h1] at hf
        have hstep : ∀ q' : Option Char, stepQuote q' c = q' :=
          fun q' => stepQuote_nonquote q' c h1
        by_cases h2 : c = ';'
        · rw [if_pos h2] at hf
          refine ih _ _ _ ?_ (by rfl) (by rfl) f hf
          intro g hg
          rcases List.mem_append.mp hg with hg | hg
          · exact hres g hg
          · rw [List.mem_singleton] at hg
            subst hg
            exact hasUnquotedSemi_trimSpace _ hcur
        · rw [if_neg h2] at hf
          by_cases h3 : c = '\x7b'
          · rw [if_pos h3] at hf
            rcases List.mem_append.mp hf with hf | hf
            · exact hres f hf
            · rw [List.mem_singleton] at hf
              subst hf
              exact hasUnquotedSemi_trimSpace _ (hsemiOf (by simp [h2]))
          · rw [if_neg h3] at hf
            refine ih _ _ _ hres (hsemiOf (by simp [h2])) ?_ f hf
            rw [quoteState_append_one, ← hq, hstep]
    | some qc =>
      rw [splitAux_cons_some] at hf
      by_cases h1 : c = '\x27' ∨ c = '"'
      · rw [if_pos h1] at hf
        have hsemi := hsemiOf (by rcases h1 with rfl | rfl <;> decide)
        by_cases h2 : c = qc
        · rw [if_pos h2] at hf
          refine ih _ _ _ hres hsemi ?_ f hf
          subst h2
          rw [quoteState_append_one, ← hq]
          simp [stepQuote, h1]
        · rw [if_neg h2] at hf
          refine ih _ _ _ hres hsemi ?_ f hf
          rw [quoteState_append_one, ← hq]
          simp [stepQuote, h1, h2]
      · rw [if_neg h1] at hf
        have hstep : ∀ q' : Option Char, stepQuote q' c = q' :=
          fun q' => stepQuote_nonquote q' c h1
        by_cases h2 : c = ';'
        · rw [if_pos h2] at hf
          refine ih _ _ _ hres ?_ ?_ f hf
          · rw [hasUnquotedSemi_append_one, hcur, ← hq]
            simp [h2]
          · rw [quoteState_append_one, ← hq, hstep]
        · rw [if_neg h2] at hf
          have hsemi := hsemiOf (by simp [h2])
          by_cases h3 : c = '\x7b'
          · rw [if_pos h3] at hf
            refine ih _ _ _ hres hsemi ?_ f hf
            rw [quoteState_append_one, ← hq, hstep]
          · rw [if_neg h3] at hf
            refine ih _ _ _ hres hsemi ?_ f hf
            rw [quoteState_append_one, ← hq, hstep]

theorem splitDirectives_no_unquoted_semi (line : List Char) :
    ∀ f ∈ splitDirectives line, hasUnquotedSemi none f = false :=
  splitAux_no_unquoted_semi line [] [] none (fun f hf => absurd hf (List.not_mem_nil f)) rfl rfl

theorem splitAux_brace_stop :
    ∀ (p : List Char) (rest : List Char) (results : List (List Char)) (current : List Char)
      (q : Option Char), quoteState q p = none →
      splitAux (p ++ '\x7b' :: rest) results current q
        = splitAux (p ++ [ '\x7b' ]) results current q := by
  intro p
  induction p with
  | nil =>
    intro rest results current q hq
    rw [quoteState_nil] at hq
    subst hq
    rfl
  | cons a p' ih =>
    intro rest results current q hq
    rw [quoteState_cons] at hq
    cases q with
    | none =>
      rw [List.cons_append, List.cons_append, splitAux_cons_none, splitAux_cons_none]
      by_cases h1 : a = '\x27' ∨ a = '"'
      · rw [if_pos h1, if_pos h1]
        have hs : stepQuote none a = some a := by simp [stepQuote, h1]
        rw [hs] at hq
        exact ih rest _ _ _ hq
      · rw [if_neg h1, if_neg h1]
        rw [stepQuote_nonquote _ _ h1] at hq
        by_cases h2 : a = ';'
        · rw [if_pos h2, if_pos h2]
          exact ih rest _ _ _ hq
        · rw [if_neg h2, if_neg h2]
          by_cases h3 : a = '\x7b'
          · rw [if_pos h3, if_pos h3]
          · rw [if_neg h3, if_neg h3]
            exact ih rest _ _ _ hq
    | some qc =>
      rw [List.cons_append, List.cons_append, splitAux_cons_some, splitAux_cons_some]
      by_cases h1 : a = '\x27' ∨ a = '"'
      · rw [if_pos h1, if_pos h1]
        by_cases h2 : a = qc
        · rw [if_pos h2, if_pos h2]
          subst h2
          have hs : stepQuote (some a) a = none := by simp [stepQuote, h1]
          rw [hs] at hq
          exact ih rest _ _ _ hq
        · rw [if_neg h2, if_neg h2]
          have hs : stepQuote (some qc) a = some qc := by simp [stepQuote, h1, h2]
          rw [hs] at hq
          exact ih rest _ _ _ hq
      · rw [if_neg h1, if_neg h1]
        rw [stepQuote_nonquote _ _ h1] at hq
        by_cases h2 : a = ';'
        · rw [if_pos h2, if_pos h2]
          exact ih rest _ _ _ hq
        · rw [if_neg h2, if_neg h2]
          by_cases h3 : a = '\x7b'
          · rw [if_pos h3, if_pos h3]
            exact ih rest _ _ _ hq
          · rw [if_neg h3, if_neg h3]
            exact ih rest _ _ _ hq

theorem splitAux_brace_last :
    ∀ (p : List Char) (results : List (List Char)) (current : List Char) (q : Option Char),
      quoteState q p = none →
      ∃ rs f, splitAux (p ++ [ '\x7b' ]) results current q = rs ++ [f]
        ∧ f.getLast? = some '\x7b' := by
  intro p
  induction p with
  | nil =>
    intro results current q hq
    rw [quoteState_nil] at hq
    subst hq
    exact ⟨results, trimSpace (current ++ [ '\x7b' ]), rfl,
      trimSpace_append_nonws_getLast _ _ (by decide)⟩
  | cons a p' ih =>
    intro results current q hq
    rw [quoteState_cons] at hq
    cases q with
    | none =>
      rw [List.cons_append, splitAux_cons_none]
      by_cases h1 : a = '\x27' ∨ a = '"'
      · rw [if_pos h1]
        have hs : stepQuote none a = some a := by simp [stepQuote, h1]
        rw [hs] at hq
        exact ih _ _ _ hq
      · rw [if_neg h1]
        rw [stepQuote_nonquote _ _ h1] at hq
        by_cases h2 : a = ';'
        · rw [if_pos h2]
          exact ih _ _ _ hq
        · rw [if_neg h2]
          by_cases h3 : a = '\x7b'
          · rw [if_pos h3]
            exact ⟨results, trimSpace (current ++ [a]), rfl, by
              rw [trimSpace_append_nonws_getLast _ _ (by subst h3; decide), h3]⟩
          · rw [if_neg h3]
            exact ih _ _ _ hq
    | some qc =>
      rw [List.cons_append, splitAux_cons_some]
      by_cases h1 : a = '\x27' ∨ a = '"'
      · rw [if_pos h1]
        by_cases h2 : a = qc
        · rw [if_pos h2]
          subst h2
          have hs : stepQuote (some a) a = none := by simp [stepQuote, h1]
          rw [hs] at hq
          exact ih _ _ _ hq
        · rw [if_neg h2]
          have hs : stepQuote (some qc) a = some qc := by simp [stepQuote, h1, h2]
          rw [hs] at hq
          exact ih _ _ _ hq
      · rw [if_neg h1]
        rw [stepQuote_nonquote _ _ h1] at hq
        by_cases h2 : a = ';'
        · rw [if_pos h2]
          exact ih _ _ _ hq
        · rw [if_neg h2]
          by_cases h3 : a = '\x7b'
          · rw [if_pos h3]
            exact ih _ _ _ hq
          · rw [if_neg h3]
            exact ih _ _ _ hq

/-! Unfolding lemmas for the tree builder. -/

theorem parseDirectives_cons_skip (d : List Char) (rest comments : List (List Char))
    (cur : Block) (h : trimSpace d = []) :
    parseDirectives (d :: rest) comments cur = parseDirectives rest comments cur := by
  simp only [parseDirectives]
  rw [if_pos h]

theorem parseDirectives_cons_nofields (d : List Char) (rest comments : List (List Char))
    (cur : Block) (h1 : ¬trimSpace d = []) (hfs : fields (trimSpace d) = []) :
    parseDirectives (d :: rest) comments cur = parseDirectives rest comments cur := by
  simp only [parseDirectives]
  rw [if_neg h1, hfs]

theorem parseDirectives_cons_block (d : List Char) (rest comments : List (List Char))
    (cur : Block) (name : List Char) (ps : List (List Char))
    (h1 : ¬trimSpace d = []) (hfs : fields (trimSpace d) = name :: ps)
    (hb : (trimSpace d).getLast? = some '\x7b') :
    parseDirectives (d :: rest) comments cur =
      ((parseDirectives rest []
          (appendLine cur ⟨name, blockParamsOf ps, comments, LineTypeBlock⟩)).1,
       (parseDirectives rest []
          (appendLine cur ⟨name, blockParamsOf ps, comments, LineTypeBlock⟩)).2
         ++ [⟨name, blockParamsOf ps, [], [], comments⟩]) := by
  simp only [parseDirectives]
  rw [if_neg h1, hfs]
  show (if (trimSpace d).getLast? = some '\x7b' then _ else _) = _
  rw [if_pos hb]

theorem parseDirectives_cons_dir (d : List Char) (rest comments : List (List Char))
    (cur : Block) (name : List Char) (ps : List (List Char))
    (h1 : ¬trimSpace d = []) (hfs : fields (trimSpace d) = name :: ps)
    (hb : ¬(trimSpace d).getLast? = some '\x7b') :
    parseDirectives (d :: rest) comments cur =
      parseDirectives rest []
        (appendLine cur ⟨name, ps, comments,
          if name = ("include").toList then LineTypeInclude else LineTypeDirective⟩) := by
  simp only [parseDirectives]
  rw [if_neg h1, hfs]
  show (if (trimSpace d).getLast? = some '\x7b' then _ else _) = _
  rw [if_neg hb]

theorem parseLine_cons_eq (line : List Char) (cur : Block) (rest : List Block) :
    parseLine line (cur :: rest) =
      if (stripComment line).1 = [] then
        (if (stripComment line).2 = [] then cur :: rest
         else appendLine cur ⟨[], [], (stripComment line).2, LineTypeComment⟩ :: rest)
      else if (stripComment line).1 = [ '\x7d' ] then
        (match rest with
         | [] => cur :: rest
         | parent :: rest2 => appendBlock parent cur :: rest2)
      else
        (parseDirectives (splitDirectives (stripComment line).1) (stripComment line).2 cur).2
          ++ (parseDirectives (splitDirectives (stripComment line).1) (stripComment line).2 cur).1
            :: rest := rfl

@[simp] theorem appendLine_name (b : Block) (l : Line) : (appendLine b l).name = b.name := by
  cases b
  rfl

@[simp] theorem appendLine_params (b : Block) (l : Line) :
    (appendLine b l).params = b.params := by
  cases b
  rfl

@[simp] theorem appendLine_lines (b : Block) (l : Line) :
    (appendLine b l).lines = b.lines ++ [l] := by
  cases b
  rfl

@[simp] theorem appendLine_blocks (b : Block) (l : Line) :
    (appendLine b l).blocks = b.blocks := by
  cases b
  rfl

@[simp] theorem appendLine_np (b : Block) (l : Line) : np (appendLine b l) = np b := by
  cases b
  rfl

@[simp] theorem appendBlock_lines (p c : Block) : (appendBlock p c).lines = p.lines := by
  cases p
  rfl

@[simp] theorem appendBlock_blocks (p c : Block) :
    (appendBlock p c).blocks = p.blocks ++ [c] := by
  cases p
  rfl

@[simp] theorem appendBlock_np (p c : Block) : np (appendBlock p c) = np p := by
  cases p
  rfl

@[simp] theorem appendBlock_name (p c : Block) : (appendBlock p c).name = p.name := by
  cases p
  rfl

/-! The tree-shape invariant, threaded through the parse stack. -/

theorem blocksMirror_mk (n : List Char) (p : List (List Char)) (ls : List Line)
    (bs : List Block) (cs : List (List Char)) :
    blocksMirror ⟨n, p, ls, bs, cs⟩
      = (decide (bsPairs ls = bs.map np) && blocksMirrorList bs) := rfl

theorem blocksMirrorList_cons (b : Block) (bs : List Block) :
    blocksMirrorList (b :: bs) = (blocksMirror b && blocksMirrorList bs) := rfl

/-- The shape of one frame considered on its own: its BlockStart lines mirror
its already-closed children. -/
def frameOk (b : Block) : Prop :=
  bsPairs b.lines = b.blocks.map np ∧ blocksMirrorList b.blocks = true

/-- The link between an open frame and its parent frame below it on the
stack: the parent's BlockStart lines mirror its closed children followed by
the still-open child. -/
def stackLink (child parent : Block) : Prop :=
  bsPairs parent.lines = parent.blocks.map np ++ [np child]
    ∧ blocksMirrorList parent.blocks = true

/-- Invariant of the frames below the top of the stack. -/
def stackInvAux : Block → List Block → Prop
  | _, [] => True
  | c, p :: rest => stackLink c p ∧ stackInvAux p rest

/-- Invariant of the whole parse stack. -/
def stackInv : List Block → Prop
  | [] => True
  | t :: rest => frameOk t ∧ stackInvAux t rest

theorem blocksMirror_iff_frameOk (b : Block) : blocksMirror b = true ↔ frameOk b := by
  cases b with
  | mk n p ls bs cs =>
    rw [blocksMirror_mk]
    simp [frameOk, Block.lines, Block.blocks, Bool.and_eq_true, decide_eq_true_iff]

theorem blocksMirrorList_append (l : List Block) (b : Block) :
    blocksMirrorList (l ++ [b]) = (blocksMirrorList l && blocksMirror b) := by
  induction l with
  | nil =>
    show blocksMirrorList [b] = (true && blocksMirror b)
    rw [blocksMirrorList_cons]
    cases blocksMirror b <;> rfl
  | cons x xs ih =>
    rw [List.cons_append, blocksMirrorList_cons, blocksMirrorList_cons, ih, Bool.and_assoc]

theorem bsPairs_append (ls : List Line) (l : Line) :
    bsPairs (ls ++ [l])
      = bsPairs ls ++ (if l.type = LineTypeBlock then [npLine l] else []) := by
  by_cases h : l.type = LineTypeBlock <;> simp [bsPairs, List.filterMap_append, h]

theorem stackInvAux_congr (c c' : Block) (h : np c = np c') :
    ∀ rest, stackInvAux c rest → stackInvAux c' rest := by
  intro rest
  cases rest with
  | nil => intro; trivial
  | cons p r =>
    rintro ⟨hl, ha⟩
    refine ⟨?_, ha⟩
    unfold stackLink at hl ⊢
    rw [← h]
    exact hl

theorem stackInv_pop (top p : Block) (r : List Block) (h : stackInv (top :: p :: r)) :
    stackInv (appendBlock p top :: r) := by
  obtain ⟨hOk, hLink, hAux⟩ := h
  refine ⟨⟨?_, ?_⟩, ?_⟩
  · rw [appendBlock_lines, appendBlock_blocks, List.map_append]
    simpa using hLink.1
  · rw [appendBlock_blocks, blocksMirrorList_append, hLink.2]
    simp [(blocksMirror_iff_frameOk top).mpr hOk]
  · exact stackInvAux_congr p _ (by rw [appendBlock_np]) r hAux

theorem parseDirectives_inv :
    ∀ (frags : List (List Char)) (comments : List (List Char)) (cur : Block)
      (rest : List Block),
      (∀ f ∈ frags.dropLast, (trimSpace f).getLast? ≠ some '\x7b') →
      stackInv (cur :: rest) →
      stackInv ((parseDirectives frags comments cur).2
        ++ (parseDirectives frags comments cur).1 :: rest) := by
  intro frags
  induction frags with
  | nil =>
    intro comments cur rest _ hinv
    simpa [parseDirectives] using hinv
  | cons d ds ih =>
    intro comments cur rest hfr hinv
    have hds : ∀ f ∈ ds.dropLast, (trimSpace f).getLast? ≠ some '\x7b' := by
      intro f hf
      apply hfr
      cases ds with
      | nil => cases hf
      | cons x xs =>
        rw [List.dropLast_cons₂]
        exact List.mem_cons_of_mem d hf
    by_cases h1 : trimSpace d = []
    · rw [parseDirectives_cons_skip _ _ _ _ h1]
      exact ih comments cur rest hds hinv
    · cases hfs : fields (trimSpace d) with
      | nil =>
        rw [parseDirectives_cons_nofields _ _ _ _ h1 hfs]
        exact ih comments cur rest hds hinv
      | cons name ps =>
        by_cases hb : (trimSpace d).getLast? = some '\x7b'
        · have hds0 : ds = [] := by
            cases ds with
            | nil => rfl
            | cons x xs =>
              exfalso
              have hmem : d ∈ (d :: x :: xs).dropLast := by
                rw [List.dropLast_cons₂]
                exact List.mem_cons_self _ _
              exact hfr d hmem hb
          subst hds0
          rw [parseDirectives_cons_block _ _ _ _ _ _ h1 hfs hb]
          obtain ⟨hOk, hAux⟩ := hinv
          simp only [parseDirectives, List.nil_append]
          refine ⟨⟨rfl, rfl⟩, ⟨?_, ?_⟩, ?_⟩
          · rw [appendLine_lines, appendLine_blocks, bsPairs_append]
            rw [hOk.1]
            rfl
          · rw [appendLine_blocks]
            exact hOk.2
          · exact stackInvAux_congr cur _ (by rw [appendLine_np]) rest hAux
        · rw [parseDirectives_cons_dir _ _ _ _ _ _ h1 hfs hb]
          apply ih _ _ rest hds
          obtain ⟨hOk, hAux⟩ := hinv
          refine ⟨⟨?_, ?_⟩, ?_⟩
          · rw [appendLine_lines, appendLine_blocks, bsPairs_append]
            have htype : (Line.mk name ps comments
                (if name = ("include").toList then LineTypeInclude
                 else LineTypeDirective)).type ≠ LineTypeBlock := by
              show ¬(if name = ("include").toList then LineTypeInclude
                else LineTypeDirective) = LineTypeBlock
              by_cases hinc : name = ("include").toList
              · rw [if_pos hinc]
                exact fun hc => LineType.noConfusion hc
              · rw [if_neg hinc]
                exact fun hc => LineType.noConfusion hc
            rw [if_neg htype, List.append_nil]
            exact hOk.1
          · rw [appendLine_blocks]
            exact hOk.2
          · exact stackInvAux_congr cur _ (by rw [appendLine_np]) rest hAux

theorem parseLine_inv (line : List Char) (stack : List Block) (h : stackInv stack) :
    stackInv (parseLine line stack) := by
  cases stack with
  | nil => trivial
  | cons cur rest =>
    rw [parseLine_cons_eq]
    by_cases h1 : (stripComment line).1 = []
    · rw [if_pos h1]
      by_cases h2 : (stripComment line).2 = []
      · rw [if_pos h2]
        exact h
      · rw [if_neg h2]
        obtain ⟨hOk, hAux⟩ := h
        refine ⟨⟨?_, ?_⟩, ?_⟩
        · rw [appendLine_lines, appendLine_blocks, bsPairs_append]
          rw [if_neg (by simp), List.append_nil]
          exact hOk.1
        · rw [appendLine_blocks]
          exact hOk.2
        · exact stackInvAux_congr cur _ (by rw [appendLine_np]) rest hAux
    · rw [if_neg h1]
      by_cases h2 : (stripComment line).1 = [ '\x7d' ]
      · rw [if_pos h2]
        cases rest with
        | nil => exact h
        | cons parent rest2 => exact stackInv_pop cur parent rest2 h
      · rw [if_neg h2]
        exact parseDirectives_inv _ _ _ _ (splitDirectives_dropLast_no_brace _) h

theorem closeAll_mirror :
    ∀ (rest : List Block) (top : Block),
      stackInv (top :: rest) → blocksMirror (closeAll top rest) = true := by
  intro rest
  induction rest with
  | nil =>
    intro top h
    exact (blocksMirror_iff_frameOk top).mpr h.1
  | cons p r ih =>
    intro top h
    exact ih (appendBlock p top) (stackInv_pop top p r h)

theorem stackInv_init : stackInv [rootBlock] := ⟨⟨rfl, rfl⟩, trivial⟩

theorem foldl_parseStep_inv (input : List (List Char)) :
    ∀ stack, stackInv stack → stackInv (input.foldl parseStep stack) := by
  induction input with
  | nil =>
    intro s h
    exact h
  | cons raw t ih =>
    intro s h
    rw [List.foldl_cons]
    apply ih
    unfold parseStep
    by_cases hl : trimSpace raw = []
    · rw [if_pos hl]
      exact h
    · rw [if_neg hl]
      exact parseLine_inv _ _ h

/-- C4: after parsing any input, in every scope of the resulting document the
entries of kind BlockStart among its lines correspond one to one, in order,
with its children, each BlockStart carrying the same name and arguments as
its corresponding child scope. -/
theorem C4_blockstart_child_mirror (input : List (List Char)) :
    blocksMirror (parseConfigLines input) = true := by
  unfold parseConfigLines
  cases hfold : input.foldl parseStep [rootBlock] with
  | nil => rfl
  | cons top rest =>
    have hinv : stackInv (top :: rest) := by
      rw [← hfold]
      exact foldl_parseStep_inv input [rootBlock] stackInv_init
    exact closeAll_mirror rest top hinv

/-! Shape lemmas for the builder. -/

theorem appendLine_mk (n : List Char) (p : List (List Char)) (ls : List Line)
    (bs : List Block) (cs : List (List Char)) (l : Line) :
    appendLine ⟨n, p, ls, bs, cs⟩ l = ⟨n, p, ls ++ [l], bs, cs⟩ := rfl

theorem parseDirectives_fst_name :
    ∀ (frags comments : List (List Char)) (cur : Block),
      (parseDirectives frags comments cur).1.name = cur.name := by
  intro frags
  induction frags with
  | nil =>
    intro comments cur
    rfl
  | cons d ds ih =>
    intro comments cur
    by_cases h1 : trimSpace d = []
    · rw [parseDirectives_cons_skip _ _ _ _ h1]
      exact ih comments cur
    · cases hfs : fields (trimSpace d) with
      | nil =>
        rw [parseDirectives_cons_nofields _ _ _ _ h1 hfs]
        exact ih comments cur
      | cons name ps =>
        by_cases hb : (trimSpace d).getLast? = some '\x7b'
        · rw [parseDirectives_cons_block _ _ _ _ _ _ h1 hfs hb]
          rw [ih, appendLine_name]
        · rw [parseDirectives_cons_dir _ _ _ _ _ _ h1 hfs hb]
          rw [ih, appendLine_name]

theorem parseDirectives_clean :
    ∀ (frags : List (List Char)) (n : List Char) (p : List (List Char)) (ls : List Line)
      (bs : List Block) (cs : List (List Char)),
      ∃ s pb,
        parseDirectives frags [] ⟨n, p, ls, bs, cs⟩ = (⟨n, p, ls ++ s, bs, cs⟩, pb)
        ∧ (∀ l ∈ s, l.comments = []) ∧ (∀ b ∈ pb, b.comments = []) := by
  intro frags
  induction frags with
  | nil =>
    intro n p ls bs cs
    exact ⟨[], [], by simp [parseDirectives], fun l hl => absurd hl (List.not_mem_nil l),
      fun b hb => absurd hb (List.not_mem_nil b)⟩
  | cons d ds ih =>
    intro n p ls bs cs
    by_cases h1 : trimSpace d = []
    · rw [parseDirectives_cons_skip _ _ _ _ h1]
      exact ih n p ls bs cs
    · cases hfs : fields (trimSpace d) with
      | nil =>
        rw [parseDirectives_cons_nofields _ _ _ _ h1 hfs]
        exact ih n p ls bs cs
      | cons name ps =>
        by_cases hb : (trimSpace d).getLast? = some '\x7b'
        · rw [parseDirectives_cons_block _ _ _ _ _ _ h1 hfs hb, appendLine_mk]
          obtain ⟨s', pb', heq, hls, hpb⟩ :=
            ih n p (ls ++ [⟨name, blockParamsOf ps, [], LineTypeBlock⟩]) bs cs
          rw [heq]
          refine ⟨⟨name, blockParamsOf ps, [], LineTypeBlock⟩ :: s',
            pb' ++ [⟨name, blockParamsOf ps, [], [], []⟩], ?_, ?_, ?_⟩
          · rw [List.append_assoc]
            rfl
          · intro l hl
            rcases List.mem_cons.mp hl with rfl | hl
            · rfl
            · exact hls l hl
          · intro b hbmem
            rcases List.mem_append.mp hbmem with hbmem | hbmem
            · exact hpb b hbmem
            · rw [List.mem_singleton] at hbmem
              subst hbmem
              rfl
        · rw [parseDirectives_cons_dir _ _ _ _ _ _ h1 hfs hb, appendLine_mk]
          obtain ⟨s', pb', heq, hls, hpb⟩ :=
            ih n p (ls ++ [⟨name, ps, [],
              if name = ("include").toList then LineTypeInclude else LineTypeDirective⟩]) bs cs
          rw [heq]
          refine ⟨⟨name, ps, [],
            if name = ("include").toList then LineTypeInclude else LineTypeDirective⟩ :: s',
            pb', ?_, ?_, hpb⟩
          · rw [List.append_assoc]
            rfl
          · intro l hl
            rcases List.mem_cons.mp hl with rfl | hl
            · rfl
            · exact hls l hl

theorem parseDirectives_first_comment :
    ∀ (frags comments : List (List Char)) (n : List Char) (p : List (List Char))
      (ls : List Line) (bs : List Block) (cs : List (List Char)),
      ∃ s pb,
        parseDirectives frags comments ⟨n, p, ls, bs, cs⟩ = (⟨n, p, ls ++ s, bs, cs⟩, pb)
        ∧ (∀ l ∈ s.tail, l.comments = [])
        ∧ (∀ b ∈ pb, b.comments = []
            ∨ s.head? = some ⟨b.name, b.params, b.comments, LineTypeBlock⟩) := by
  intro frags
  induction frags with
  | nil =>
    intro comments n p ls bs cs
    exact ⟨[], [], by simp [parseDirectives], fun l hl => absurd hl (List.not_mem_nil l),
      fun b hb => absurd hb (List.not_mem_nil b)⟩
  | cons d ds ih =>
    intro comments n p ls bs cs
    by_cases h1 : trimSpace d = []
    · rw [parseDirectives_cons_skip _ _ _ _ h1]
      exact ih comments n p ls bs cs
    · cases hfs : fields (trimSpace d) with
      | nil =>
        rw [parseDirectives_cons_nofields _ _ _ _ h1 hfs]
        exact ih comments n p ls bs cs
      | cons name ps =>
        by_cases hb : (trimSpace d).getLast? = some '\x7b'
        · rw [parseDirectives_cons_block _ _ _ _ _ _ h1 hfs hb, appendLine_mk]
          obtain ⟨s', pb', heq, hls, hpb⟩ :=
            parseDirectives_clean ds n p
              (ls ++ [⟨name, blockParamsOf ps, comments, LineTypeBlock⟩]) bs cs
          rw [heq]
          refine ⟨⟨name, blockParamsOf ps, comments, LineTypeBlock⟩ :: s',
            pb' ++ [⟨name, blockParamsOf ps, [], [], comments⟩], ?_, ?_, ?_⟩
          · rw [List.append_assoc]
            rfl
          · exact hls
          · intro b hbmem
            rcases List.mem_append.mp hbmem with hbmem | hbmem
            · exact Or.inl (hpb b hbmem)
            · rw [List.mem_singleton] at hbmem
              subst hbmem
              exact Or.inr rfl
        · rw [parseDirectives_cons_dir _ _ _ _ _ _ h1 hfs hb, appendLine_mk]
          obtain ⟨s', pb', heq, hls, hpb⟩ :=
            parseDirectives_clean ds n p
              (ls ++ [⟨name, ps, comments,
                if name = ("include").toList then LineTypeInclude
                else LineTypeDirective⟩]) bs cs
          rw [heq]
          refine ⟨⟨name, ps, comments,
            if name = ("include").toList then LineTypeInclude
            else LineTypeDirective⟩ :: s', pb', ?_, ?_, ?_⟩
          · rw [List.append_assoc]
            rfl
          · exact hls
          · exact fun b hbmem => Or.inl (hpb b hbmem)

/-! Root-name preservation. -/

theorem parseLine_root_name (line : List Char) (stack : List Block) :
    ((parseLine line stack).map Block.name).getLast? = (stack.map Block.name).getLast? := by
  cases stack with
  | nil => rfl
  | cons cur rest =>
    rw [parseLine_cons_eq]
    by_cases h1 : (stripComment line).1 = []
    · rw [if_pos h1]
      by_cases h2 : (stripComment line).2 = []
      · rw [if_pos h2]
      · rw [if_neg h2, List.map_cons, List.map_cons, appendLine_name]
    · rw [if_neg h1]
      by_cases h2 : (stripComment line).1 = [ '\x7d' ]
      · rw [if_pos h2]
        cases rest with
        | nil => rfl
        | cons parent rest2 =>
          rw [List.map_cons, List.map_cons, List.map_cons, appendBlock_name,
            List.getLast?_cons_cons]
      · rw [if_neg h2, List.map_append, List.map_cons, List.getLast?_append]
        cases hv : ((parseDirectives (splitDirectives (stripComment line).1)
            (stripComment line).2 cur).1.name :: rest.map Block.name).getLast? with
        | none =>
          exact absurd (List.getLast?_eq_none_iff.mp hv) (by simp)
        | some v =>
          rw [parseDirectives_fst_name] at hv
          rw [List.map_cons, ← hv]
          rfl

theorem closeAll_root_name :
    ∀ (rest : List Block) (top : Block),
      ((top :: rest).map Block.name).getLast? = some (("root").toList) →
      (closeAll top rest).name = ("root").toList := by
  intro rest
  induction rest with
  | nil =>
    intro top h
    simpa using h
  | cons p r ih =>
    intro top h
    apply ih (appendBlock p top)
    rw [List.map_cons, appendBlock_name]
    rw [List.map_cons, List.map_cons, List.getLast?_cons_cons] at h
    exact h

theorem foldl_parseStep_root_name (input : List (List Char)) :
    ∀ stack, ((input.foldl parseStep stack).map Block.name).getLast?
      = (stack.map Block.name).getLast? := by
  induction input with
  | nil =>
    intro stack
    rfl
  | cons raw t ih =>
    intro stack
    rw [List.foldl_cons, ih]
    unfold parseStep
    by_cases hl : trimSpace raw = []
    · rw [if_pos hl]
    · rw [if_neg hl, parseLine_root_name]

theorem parseConfigLines_root_name (input : List (List Char)) :
    (parseConfigLines input).name = ("root").toList := by
  unfold parseConfigLines
  cases hfold : input.foldl parseStep [rootBlock] with
  | nil => rfl
  | cons top rest =>
    apply closeAll_root_name
    rw [← hfold, foldl_parseStep_root_name]
    rfl

/-! Refinement of the scope-opening word handling against the spec's words. -/

theorem parseDirectives_block_spec_strip
    (f : List Char) (comments : List (List Char)) (cur : Block)
    (nm : List Char) (ps : List (List Char))
    (hfs : fields (trimSpace f) = nm :: ps)
    (hb : (trimSpace f).getLast? = some '\x7b')
    (hps : ps ≠ []) :
    (parseDirectives [f] comments cur).2.map np = [specScopeOpen (nm :: ps)] := by
  have h1 : ¬trimSpace f = [] := by
    intro h0
    rw [h0] at hb
    exact Option.noConfusion hb
  rw [parseDirectives_cons_block _ _ _ _ _ _ h1 hfs hb]
  show [(nm, blockParamsOf ps)] = [specScopeOpen (nm :: ps)]
  obtain ⟨w, ri, hrev⟩ : ∃ w ri, ps.reverse = w :: ri := by
    cases hr : ps.reverse with
    | nil => exact absurd (List.reverse_eq_nil_iff.mp hr) hps
    | cons w ri => exact ⟨w, ri, rfl⟩
  have hbp : blockParamsOf ps
      = (if w = [ '\x7b' ] then ri.reverse
         else if w.getLast? = some '\x7b' then ri.reverse ++ [w.dropLast] else ps) := by
    unfold blockParamsOf
    rw [hrev]
  have hstrip : specStripBrace (nm :: ps)
      = (if w = [ '\x7b' ] then (ri ++ [nm]).reverse
         else if w.getLast? = some '\x7b' then (ri ++ [nm]).reverse ++ [w.dropLast]
         else nm :: ps) := by
    unfold specStripBrace
    rw [List.reverse_cons, hrev, List.cons_append]
  rw [show specScopeOpen (nm :: ps)
      = ((specStripBrace (nm :: ps)).headI, (specStripBrace (nm :: ps)).tail) from rfl,
    hstrip, hbp]
  by_cases hw1 : w = [ '\x7b' ]
  · simp only [if_pos hw1]
    simp [List.reverse_append]
  · simp only [if_neg hw1]
    by_cases hw2 : w.getLast? = some '\x7b'
    · simp only [if_pos hw2]
      simp [List.reverse_append]
    · simp only [if_neg hw2]
      simp

/-! The claims. -/

/-- C1: the claim says comment extraction is quote-aware, so that the line
`alpha "b;c#d" gamma;` parses to one Directive named `alpha` with arguments
`"b;c#d"` (quotes retained) and `gamma` and no comment.  The code instead
takes the first `#` of the line regardless of quote state
(`strings.Index(line, "#")`), so the argument is truncated to `"b;c` and the
text `d" gamma;` becomes the comment.  This theorem evaluates the embedded
code at that failing input. -/
theorem C1_quote_aware_comment_failing_eval :
    (parseConfigLines [("alpha \"b;c#d\" gamma;").toList]).lines.map
        (fun l => (l.name, l.params, l.comments))
      = [(("alpha").toList, [("\"b;c").toList], [("d\" gamma;").toList])]
    ∧ (parseConfigLines [("alpha \"b;c#d\" gamma;").toList]).lines.map
        (fun l => (l.name, l.params, l.comments))
      ≠ [(("alpha").toList, [("\"b;c#d\"").toList, ("gamma").toList], [])] :=
  ⟨rfl, by decide⟩

/-- C2 counterexample: the single-word scope-opening fragment `server\x7b`
opens a scope whose NAME retains the brace (`server\x7b`), refuting the claim
that the new scope's name never contains the `\x7b` and that this input opens
a scope named `server`. -/
theorem C2_counterexample :
    (parseConfigLines [("server\x7b").toList]).blocks.map np
      = [(("server\x7b").toList, [])]
    ∧ (parseConfigLines [("server\x7b").toList]).blocks.map np
      ≠ [(("server").toList, [])] :=
  ⟨rfl, by decide⟩

/-- C2 amended: for a scope-opening fragment of at least two words, the
trailing `\x7b` is stripped from the final word (or the word dropped when it
is exactly `\x7b`), exactly as the spec words it, so name and arguments match
the spec's stripping rule; a single-word fragment such as `server\x7b` keeps
the brace in the scope's name and opens it with no arguments. -/
theorem C2_brace_strip_amended :
    (∀ (f : List Char) (comments : List (List Char)) (cur : Block)
       (nm : List Char) (ps : List (List Char)),
      fields (trimSpace f) = nm :: ps →
      (trimSpace f).getLast? = some '\x7b' →
      ps ≠ [] →
      (parseDirectives [f] comments cur).2.map np = [specScopeOpen (nm :: ps)])
    ∧ (parseConfigLines [("name arg\x7b").toList]).blocks.map np
        = [(("name").toList, [("arg").toList])]
    ∧ (parseConfigLines [("server\x7b").toList]).blocks.map np
        = [(("server\x7b").toList, [])] :=
  ⟨fun f comments cur nm ps hfs hb hps =>
    parseDirectives_block_spec_strip f comments cur nm ps hfs hb hps, rfl, rfl⟩

/-- Witness for C2: the amended theorem applied to the concrete fragment
`name arg\x7b`. -/
theorem C2_brace_strip_amended_witness :
    fields (trimSpace (("name arg\x7b").toList))
        = ("name").toList :: [("arg\x7b").toList]
    ∧ (trimSpace (("name arg\x7b").toList)).getLast? = some '\x7b'
    ∧ [("arg\x7b").toList] ≠ []
    ∧ (parseDirectives [("name arg\x7b").toList] [] rootBlock).2.map np
        = [specScopeOpen (("name").toList :: [("arg\x7b").toList])] :=
  ⟨rfl, rfl, by decide,
    C2_brace_strip_amended.1 (("name arg\x7b").toList) [] rootBlock
      (("name").toList) [("arg\x7b").toList] rfl rfl (by decide)⟩

/-- C3: an input consisting of the single line `\x7d` parses without failure
to a root with no lines and no children; a line that is exactly `\x7d` after
comment removal pops only when a non-root scope is open; `parseLine` never
empties the stack, and the bottom (root) frame's name survives every line. -/
theorem C3_stray_close_lenient :
    parseConfigLines [("\x7d").toList] = rootBlock
    ∧ (∀ (cur : Block) (rest : List Block),
        parseLine (("\x7d").toList) (cur :: rest)
          = match rest with
            | [] => [cur]
            | parent :: rest2 => appendBlock parent cur :: rest2)
    ∧ (∀ (line : List Char) (cur : Block) (rest : List Block),
        parseLine line (cur :: rest) ≠ [])
    ∧ (∀ (line : List Char) (stack : List Block),
        ((parseLine line stack).map Block.name).getLast?
          = (stack.map Block.name).getLast?) := by
  refine ⟨rfl, ?_, ?_, parseLine_root_name⟩
  · intro cur rest
    cases rest <;> rfl
  · intro line cur rest
    rw [parseLine_cons_eq]
    by_cases h1 : (stripComment line).1 = []
    · rw [if_pos h1]
      by_cases h2 : (stripComment line).2 = []
      · rw [if_pos h2]
        exact List.cons_ne_nil _ _
      · rw [if_neg h2]
        exact List.cons_ne_nil _ _
    · rw [if_neg h1]
      by_cases h2 : (stripComment line).1 = [ '\x7d' ]
      · rw [if_pos h2]
        cases rest with
        | nil => exact List.cons_ne_nil _ _
        | cons parent rest2 => exact List.cons_ne_nil _ _
      · rw [if_neg h2]
        simp

/-- C5 counterexample: on the line `;;` the splitter returns two empty
fragments, not no fragments, refuting the claim that whitespace-only
fragments are dropped from `splitDirectives` output. -/
theorem C5_counterexample :
    splitDirectives ((";;").toList) = [[], []]
    ∧ ([[], []] : List (List Char)) ≠ [] :=
  ⟨rfl, by decide⟩

/-- C5 amended: no fragment returned by `splitDirectives` contains an
unquoted `;`; whitespace-only fragments are trimmed to empty strings and kept
in the output (`;;` yields two empty fragments), and the builder then skips
them so the line `;;` changes nothing. -/
theorem C5_splitter_contract_amended :
    (∀ (line f : List Char), f ∈ splitDirectives line → hasUnquotedSemi none f = false)
    ∧ splitDirectives ((";;").toList) = [[], []]
    ∧ parseLine ((";;").toList) [rootBlock] = [rootBlock] :=
  ⟨fun line f hf => splitDirectives_no_unquoted_semi line f hf, rfl, rfl⟩

/-- Witness for C5: the amended theorem applied to the fragment `a` of the
line `a;b`. -/
theorem C5_splitter_contract_amended_witness :
    (("a").toList ∈ splitDirectives (("a;b").toList))
    ∧ hasUnquotedSemi none (("a").toList) = false :=
  ⟨by decide,
    C5_splitter_contract_amended.1 (("a;b").toList) (("a").toList) (by decide)⟩

/-- C6: when the quote state is inactive at a `\x7b`, splitting stops for the
whole line: everything after the `\x7b` is discarded, and the last emitted
fragment retains the `\x7b` as its final character. -/
theorem C6_unquoted_brace_stops_split :
    (∀ (p rest : List Char), quoteState none p = none →
      splitDirectives (p ++ '\x7b' :: rest) = splitDirectives (p ++ [ '\x7b' ])
      ∧ ∃ rs f, splitDirectives (p ++ [ '\x7b' ]) = rs ++ [f]
          ∧ f.getLast? = some '\x7b')
    ∧ splitDirectives (("server \x7b junk; more").toList) = [("server \x7b").toList] :=
  ⟨fun p rest hq =>
    ⟨splitAux_brace_stop p rest [] [] none hq, splitAux_brace_last p [] [] none hq⟩,
   rfl⟩

/-- Witness for C6: the theorem applied to the prefix `ab ` and the discarded
tail ` tail; x`. -/
theorem C6_unquoted_brace_stops_split_witness :
    quoteState none (("ab ").toList) = none
    ∧ (splitDirectives ((("ab ").toList) ++ '\x7b' :: ((" tail; x").toList))
         = splitDirectives ((("ab ").toList) ++ [ '\x7b' ])
       ∧ ∃ rs f, splitDirectives ((("ab ").toList) ++ [ '\x7b' ]) = rs ++ [f]
          ∧ f.getLast? = some '\x7b') :=
  ⟨rfl, C6_unquoted_brace_stops_split.1 (("ab ").toList) ((" tail; x").toList) rfl⟩

/-- C7: the comment extracted from a physical line is attached to the first
Line or Scope built from that line and then cleared: every later produced
line carries no comment, and a pushed scope either carries no comment or is
the first item, its mirroring BlockStart heading the new lines with the very
same comment; concretely `foo bar; # note` yields the Directive `foo bar`
with comment `note`. -/
theorem C7_comment_attachment :
    (∀ (line : List Char) (comments : List (List Char)) (n : List Char)
       (p : List (List Char)) (ls : List Line) (bs : List Block)
       (cs : List (List Char)),
      ∃ s pb,
        parseDirectives (splitDirectives line) comments ⟨n, p, ls, bs, cs⟩
            = (⟨n, p, ls ++ s, bs, cs⟩, pb)
          ∧ (∀ l ∈ s.tail, l.comments = [])
          ∧ (∀ b ∈ pb, b.comments = []
              ∨ s.head? = some ⟨b.name, b.params, b.comments, LineTypeBlock⟩))
    ∧ parseLine (("foo bar; # note").toList) [rootBlock]
        = [⟨("root").toList, [],
            [⟨("foo").toList, [("bar").toList], [("note").toList],
              LineTypeDirective⟩], [], []⟩] :=
  ⟨fun line comments n p ls bs cs =>
    parseDirectives_first_comment (splitDirectives line) comments n p ls bs cs, rfl⟩

/-- Witness for C7: the theorem applied to the two-directive line
`a 1; b 2;` with a pending comment. -/
theorem C7_comment_attachment_witness :
    ∃ s pb,
      parseDirectives (splitDirectives (("a 1; b 2;").toList)) [("x").toList]
          ⟨("root").toList, [], [], [], []⟩
        = (⟨("root").toList, [], [] ++ s, [], []⟩, pb)
        ∧ (∀ l ∈ s.tail, l.comments = [])
        ∧ (∀ b ∈ pb, b.comments = []
            ∨ s.head? = some ⟨b.name, b.params, b.comments, LineTypeBlock⟩) :=
  C7_comment_attachment.1 (("a 1; b 2;").toList) [("x").toList]
    (("root").toList) [] [] [] []

/-- C8: the embedded `ParseConfig` returns an error exactly when its line
source does (the I/O side), and on any readable line sequence it returns a
document whose root is intact; malformed structure (missing `\x7d`, stray
`\x7d`, unterminated quote, missing `;`, zero-argument directive) is absorbed
into the shape of the tree, as the concrete evaluations show. -/
theorem C8_error_propagation :
    (∀ (path : List Char) (ls : List (List Char)),
      ParseConfig path (Except.ok ls) = Except.ok ⟨parseConfigLines ls, path⟩)
    ∧ (∀ (path e : List Char), ParseConfig path (Except.error e) = Except.error e)
    ∧ (∀ ls : List (List Char), (parseConfigLines ls).name = ("root").toList)
    ∧ parseConfigLines ([("server \x7b"), ("listen 80")].map String.toList)
        = ⟨("root").toList, [], [⟨("server").toList, [], [], LineTypeBlock⟩],
           [⟨("server").toList, [],
             [⟨("listen").toList, [("80").toList], [], LineTypeDirective⟩], [], []⟩], []⟩
    ∧ parseConfigLines ([("a;"), ("\x7d"), ("\x7d"), ("b;")].map String.toList)
        = ⟨("root").toList, [],
           [⟨("a").toList, [], [], LineTypeDirective⟩,
            ⟨("b").toList, [], [], LineTypeDirective⟩], [], []⟩
    ∧ parseConfigLines [("foo \"a b;").toList]
        = ⟨("root").toList, [],
           [⟨("foo").toList, [("\"a").toList, ("b;").toList], [], LineTypeDirective⟩],
           [], []⟩
    ∧ parseConfigLines [("gzip;").toList]
        = ⟨("root").toList, [], [⟨("gzip").toList, [], [], LineTypeDirective⟩], [], []⟩ :=
  ⟨fun _ _ => rfl, fun _ _ => rfl, parseConfigLines_root_name, rfl, rfl, rfl, rfl⟩

/-- C9: the claim says re-parsing the flat re-serialization of a parsed
document yields the same name-and-argument sequences.  The re-serializer
prints all plain lines of a scope before its child blocks, so on the input
`a 1; http \x7b \x7d b 2;` (four physical lines) the original line sequence
`a, http, b` comes back as `a, b, http`: the claim fails on the code.  This
theorem evaluates the embedded code at that failing input. -/
theorem C9_roundtrip_failing_eval :
    (parseConfigLines ([("a 1;"), ("http \x7b"), ("\x7d"), ("b 2;")].map
        String.toList)).lines.map npLine
      = [(("a").toList, [("1").toList]), (("http").toList, []),
         (("b").toList, [("2").toList])]
    ∧ (parseConfigLines (printBlock
        (parseConfigLines ([("a 1;"), ("http \x7b"), ("\x7d"), ("b 2;")].map
          String.toList)) 0)).lines.map npLine
      = [(("a").toList, [("1").toList]), (("b").toList, [("2").toList]),
         (("http").toList, [])]
    ∧ ([(("a").toList, [("1").toList]), (("http").toList, []),
        (("b").toList, [("2").toList])]
        ≠ [(("a").toList, [("1").toList]), (("b").toList, [("2").toList]),
           (("http").toList, [])]) :=
  ⟨rfl, rfl, by decide⟩

/-- C10: the stack shrinks exactly on a line whose comment-stripped trimmed
text is `\x7d` with a non-root scope open; a `\x7d` with anything else on the
line never pops: `\x7d;` yields a Directive Line named `\x7d` with no
arguments, and `\x7d name \x7b` opens a scope named `\x7d` with argument
`name`. -/
theorem C10_close_only_exact_brace :
    (∀ (line : List Char) (stack : List Block),
      (parseLine line stack).length < stack.length
        ↔ ((stripComment line).1 = [ '\x7d' ] ∧ 1 < stack.length))
    ∧ parseConfigLines [("\x7d;").toList]
        = ⟨("root").toList, [], [⟨[ '\x7d' ], [], [], LineTypeDirective⟩], [], []⟩
    ∧ parseConfigLines [("\x7d name \x7b").toList]
        = ⟨("root").toList, [],
           [⟨[ '\x7d' ], [("name").toList], [], LineTypeBlock⟩],
           [⟨[ '\x7d' ], [("name").toList], [], [], []⟩], []⟩ := by
  refine ⟨?_, rfl, rfl⟩
  intro line stack
  cases stack with
  | nil =>
    show ([] : List Block).length < ([] : List Block).length ↔ _
    simp
  | cons cur rest =>
    rw [parseLine_cons_eq]
    by_cases h1 : (stripComment line).1 = []
    · rw [if_pos h1]
      have hne : ¬(stripComment line).1 = [ '\x7d' ] := by
        intro hc
        rw [h1] at hc
        exact List.noConfusion hc
      by_cases h2 : (stripComment line).2 = []
      · rw [if_pos h2]
        constructor
        · intro h
          exact absurd h (lt_irrefl _)
        · rintro ⟨hc, -⟩
          exact absurd hc hne
      · rw [if_neg h2]
        constructor
        · intro h
          rw [List.length_cons, List.length_cons] at h
          exact absurd h (lt_irrefl _)
        · rintro ⟨hc, -⟩
          exact absurd hc hne
    · rw [if_neg h1]
      by_cases h2 : (stripComment line).1 = [ '\x7d' ]
      · rw [if_pos h2]
        cases rest with
        | nil =>
          show ([cur].length < [cur].length) ↔ _
          constructor
          · intro h
            exact absurd h (lt_irrefl _)
          · rintro ⟨-, hlt⟩
            rw [List.length_cons] at hlt
            exact absurd hlt (by simp)
        | cons parent rest2 =>
          show ((appendBlock parent cur :: rest2).length
              < (cur :: parent :: rest2).length) ↔ _
          constructor
          · intro
            refine ⟨h2, ?_⟩
            simp only [List.length_cons]
            omega
          · intro
            simp only [List.length_cons]
            omega
      · rw [if_neg h2]
        constructor
        · intro h
          exfalso
          rw [List.length_append, List.length_cons, List.length_cons] at h
          omega
        · rintro ⟨hc, -⟩
          exact absurd hc h2

end nginx
